import Mathlib

/-!
Verification of the compilation-cache core of dist-clang against its
natural-language specification.  The C++ sources are shallowly embedded:
byte strings become `List Nat` (each element taken mod 256 where a byte is
consumed), machine 64-bit arithmetic becomes `Nat` arithmetic reduced
mod `2 ^ 64`, and the stateful cache components become explicit state
passing over inductive state types.
-/

namespace DistClang

/-- Truncate to an unsigned 64-bit value, as C `uint64_t` arithmetic does. -/
def w64 (x : Nat) : Nat := x % 2 ^ 64

/-- The rotation `ROTL64(x, r)` from third_party/smhasher MurmurHash3.cpp. -/
def rotl64 (x r : Nat) : Nat := w64 ((x <<< r) ||| (x >>> (64 - r)))

/-- The `fmix64` finalization mix from MurmurHash3.cpp. -/
def fmix64 (k : Nat) : Nat :=
  let a := k ^^^ (k >>> 33)
  let b := w64 (a * 0xff51afd7ed558ccd)
  let c := b ^^^ (b >>> 33)
  let d := w64 (c * 0xc4ceb9fe1a85ec53)
  d ^^^ (d >>> 33)

/-- Assemble a little-endian 64-bit word from up to eight bytes
(`getblock64` / the tail `switch` of MurmurHash3.cpp). -/
def le64 (bs : List Nat) : Nat := bs.foldr (fun b acc => b % 256 + 256 * acc) 0

/-- The `k1` mixing step of MurmurHash3_x64_128:
`k1 *= c1; k1 = ROTL64(k1,31); k1 *= c2`. -/
def mixK1 (k : Nat) : Nat :=
  w64 (rotl64 (w64 (k * 0x87c37b91114253d5)) 31 * 0x4cf5ad432745937f)

/-- The `k2` mixing step of MurmurHash3_x64_128:
`k2 *= c2; k2 = ROTL64(k2,33); k2 *= c1`. -/
def mixK2 (k : Nat) : Nat :=
  w64 (rotl64 (w64 (k * 0x4cf5ad432745937f)) 33 * 0x87c37b91114253d5)

/-- The 16-byte block loop of MurmurHash3_x64_128; returns the running
state `(h1, h2)` together with the unprocessed tail of fewer than 16 bytes. -/
def murBody : Nat → Nat → List Nat → Nat × Nat × List Nat
  | h1, h2, b0::b1::b2::b3::b4::b5::b6::b7::b8::b9::b10::b11::b12::b13::b14::b15::rest =>
      let k1 := le64 [b0, b1, b2, b3, b4, b5, b6, b7]
      let k2 := le64 [b8, b9, b10, b11, b12, b13, b14, b15]
      let h1a := h1 ^^^ mixK1 k1
      let h1b := w64 (w64 (rotl64 h1a 27 + h2) * 5 + 0x52dce729)
      let h2a := h2 ^^^ mixK2 k2
      let h2b := w64 (w64 (rotl64 h2a 31 + h1b) * 5 + 0x38495ab5)
      murBody h1b h2b rest
  | h1, h2, tail => (h1, h2, tail)

/-- The tail `switch` of MurmurHash3_x64_128: bytes 8.. feed `k2` (only when
at least 9 tail bytes exist), bytes 0..7 feed `k1` (when the tail is
non-empty). -/
def murTail (h1 h2 : Nat) (tail : List Nat) : Nat × Nat :=
  let h2t := if 8 < tail.length then h2 ^^^ mixK2 (le64 (tail.drop 8)) else h2
  let h1t := if 0 < tail.length then h1 ^^^ mixK1 (le64 (tail.take 8)) else h1
  (h1t, h2t)

/-- The finalization of MurmurHash3_x64_128. -/
def murFinal (len h1 h2 : Nat) : Nat × Nat :=
  let h1a := h1 ^^^ w64 len
  let h2a := h2 ^^^ w64 len
  let h1b := w64 (h1a + h2a)
  let h2b := w64 (h2a + h1b)
  let h1c := fmix64 h1b
  let h2c := fmix64 h2b
  let h1d := w64 (h1c + h2c)
  let h2d := w64 (h2c + h1d)
  (h1d, h2d)

/-- Serialize a word into `n` little-endian bytes, as storing `uint64_t`
values into the output buffer does on a little-endian machine. -/
def toBytesLE : Nat → Nat → List Nat
  | 0, _ => []
  | n + 1, x => x % 256 :: toBytesLE n (x / 256)

/-- The function `MurmurHash3_x64_128` from third_party/smhasher, as called by
`base::MakeHash`: block loop, tail, finalization, then the two 64-bit
halves written little-endian into a 16-byte buffer. -/
def MurmurHash3_x64_128 (input : List Nat) (seed : Nat) : List Nat :=
  let r := murBody (w64 seed) (w64 seed) input
  let t := murTail r.1 r.2.1 r.2.2
  let f := murFinal input.length t.1 t.2
  toBytesLE 8 f.1 ++ toBytesLE 8 f.2

/-- The function `base::MakeHash` (src/base/hash.cc, lines 10-16):
`MurmurHash3_x64_128(input.data(), input.size(), 0, buf); return String(buf, 16);`. -/
def MakeHash (input : List Nat) : List Nat := MurmurHash3_x64_128 input 0

/-- ASCII bytes of a string literal. -/
def strBytes (s : String) : List Nat := s.toList.map Char.toNat

/-- One lowercase hex digit. -/
def hexChar (n : Nat) : Char := "0123456789abcdef".toList.getD n 'x'

/-- Two lowercase hex digits of one byte. -/
def hexByte (b : Nat) : List Char := [hexChar (b / 16 % 16), hexChar (b % 16)]

/-- The helper `base::Hexify`: lowercase hex rendering of a byte string. -/
def Hexify (bs : List Nat) : String := ⟨bs.flatMap hexByte⟩

theorem toBytesLE_length (n x : Nat) : (toBytesLE n x).length = n := by
  induction n generalizing x with
  | zero => rfl
  | succ n ih => simp [toBytesLE, ih]

/-- C1: base::MakeHash returns a digest of exactly 16 bytes on every input
byte string, and it is deterministic: equal inputs give equal digests. -/
theorem makeHash_digest16_deterministic (input : List Nat) :
    (MakeHash input).length = 16 ∧
      ∀ input2 : List Nat, input = input2 → MakeHash input = MakeHash input2 := by
  constructor
  · simp [MakeHash, MurmurHash3_x64_128, toBytesLE_length]
  · intro input2 h
    rw [h]

/-- Witness for C1 at a concrete input. -/
theorem makeHash_digest16_deterministic_witness :
    (MakeHash (strBytes "int main()")).length = 16 ∧
      MakeHash (strBytes "int main()") = MakeHash (strBytes "int main()") := by
  have h := makeHash_digest16_deterministic (strBytes "int main()")
  exact ⟨h.1, h.2 _ rfl⟩

/-- Modelled from the spec: the ConstString implementation
(src/base/const_string.h/.cc) is not among the sources, only its unit test
is.  Per the spec the fingerprint function is streaming-friendly and
"accepts the preprocessed source as a chunked sequence", and the in-repo
test ConstStringTest.Hash expects the digest of a rope to agree with the
digest of the concatenated bytes; so a ConstString holds a list of byte
chunks and its Hash method applies base::MakeHash to their concatenation. -/
structure ConstString where
  chunks : List (List Nat)

/-- The method `ConstString::Hash()`: digest of the concatenated chunk bytes. -/
def ConstString.Hash (s : ConstString) : List Nat := MakeHash s.chunks.flatten

/-- A ConstString built from one contiguous byte string. -/
def ConstString.ofBytes (bs : List Nat) : ConstString := ⟨[bs]⟩

/-- C6: hashing a byte sequence presented as a chunked rope yields the same
128-bit digest as hashing the whole sequence at once: for every partition of
a byte string into rope chunks, the rope's hash equals the hash of the
concatenation. -/
theorem constString_rope_hash_eq_whole (chunks : List (List Nat)) :
    (ConstString.mk chunks).Hash = (ConstString.ofBytes chunks.flatten).Hash := by
  simp [ConstString.Hash, ConstString.ofBytes]

/-- Validation of the hash embedding against the in-repo test
ConstStringTest.Hash (src/base/const_string_test.cc, lines 16-28): the
digest of "All your base are belong to us", whole and chunked, hex-renders
to the expected constant. -/
theorem constString_hash_repo_test_vector :
    Hexify (ConstString.ofBytes (strBytes "All your base are belong to us")).Hash =
        "c9e92e37df1e856cbd0abffe104225b8" ∧
      Hexify (ConstString.mk [strBytes "All ", strBytes "your base",
          strBytes " are belong to us"]).Hash =
        "c9e92e37df1e856cbd0abffe104225b8" := by
  exact ⟨rfl, rfl⟩

/-- The invocation classification of `ClangFlagSet`
(COMPILE | PREPROCESS | UNKNOWN). -/
inductive FlagAction where
  | unknown
  | compile
  | preprocess
deriving DecidableEq, Repr

/-- The structured flag set of proto::Flags as exercised by the in-repo test
(src/unnamed/part_002): compiler identity, input, output, language and the
`other` / `non_cached` buckets. -/
structure PFlags where
  compilerPath : String := ""
  compilerVersion : String := ""
  input : String := ""
  output : String := ""
  language : String := ""
  other : List String := []
  nonCached : List String := []
deriving DecidableEq, Repr

/-- The six flags routed (with their value arguments) to the `non_cached`
bucket, per the spec's normative table. -/
def nonCachedNames : List String :=
  ["-main-file-name", "-coverage-file", "-resource-dir", "-internal-isystem",
   "-internal-externc-isystem", "-fdebug-compilation-dir"]

/-- Update the classification: `-emit-obj` marks a compilation, `-E` a
preprocessing run. -/
def updAction (a : String) (act : FlagAction) : FlagAction :=
  if a = "-emit-obj" then .compile else if a = "-E" then .preprocess else act

/-- Modelled from the spec: the body of `ClangFlagSet::ProcessFlags`
(client/clang_flag_set.cc) is not among the sources, only its unit test is.
The walk over the command line follows the spec's normative flag table and
the expectations of ClientTest.ClangFlagSetTest: `-o` takes the output path,
`-x` takes the language, the six non-cacheable flags carry their value into
`non_cached`, and every other argument (flag or value) is appended to
`other` in command-line order. -/
def processArgs : List String → PFlags → FlagAction → PFlags × FlagAction
  | [], fl, act => (fl, act)
  | [a], fl, act => ({ fl with other := fl.other ++ [a] }, updAction a act)
  | a :: v :: rest, fl, act =>
      if a = "-o" then processArgs rest { fl with output := v } act
      else if a = "-x" then processArgs rest { fl with language := v } act
      else if a ∈ nonCachedNames then
        processArgs rest { fl with nonCached := fl.nonCached ++ [a, v] } act
      else processArgs (v :: rest) { fl with other := fl.other ++ [a] }
        (updAction a act)

/-- The entry point `ClangFlagSet::ProcessFlags`: the first list element (empty in the
parsed clang output) is skipped, the second names the compiler binary, the
trailing positional argument is the input source path, and the arguments
between them are routed by `processArgs`. -/
def ProcessFlags (args : List String) : PFlags × FlagAction :=
  match args with
  | _ :: compiler :: rest =>
      processArgs rest.dropLast
        { compilerPath := compiler, input := (rest.getLast?).getD "" }
        FlagAction.unknown
  | _ => ({}, FlagAction.unknown)

/-- The command line of ClientTest.ClangFlagSetTest (src/unnamed/part_002,
lines 11-52). -/
def clangTestArgs : List String :=
  ["",
   "/home/test/.local/bin/clang", "-cc1",
   "-triple", "x86_64-unknown-linux-gnu",
   "-emit-obj",
   "-mrelax-all",
   "-disable-free",
   "-main-file-name", "test.cc",
   "-mrelocation-model", "static",
   "-mdisable-fp-elim",
   "-fmath-errno",
   "-masm-verbose",
   "-mconstructor-aliases",
   "-munwind-tables",
   "-fuse-init-array",
   "-target-cpu", "x86-64",
   "-target-linker-version", "2.23.2",
   "-coverage-file", "/tmp/test.o",
   "-resource-dir", "/home/test/.local/lib/clang/3.4",
   "-internal-isystem", "/usr/include/c++/4.8.2",
   "-internal-isystem", "/usr/include/c++/4.8.2/x86_64-redhat-linux",
   "-internal-isystem", "/usr/include/c++/4.8.2/backward",
   "-internal-isystem", "/usr/include/x86_64-redhat-linux/c++/4.8.2",
   "-internal-isystem", "/usr/local/include",
   "-internal-isystem", "/home/test/.local/lib/clang/3.4/include",
   "-internal-externc-isystem", "/include",
   "-internal-externc-isystem", "/usr/include",
   "-fdeprecated-macro",
   "-fdebug-compilation-dir", "/tmp",
   "-ferror-limit", "19",
   "-fmessage-length", "213",
   "-mstackrealign",
   "-fobjc-runtime=gcc",
   "-fcxx-exceptions",
   "-fexceptions",
   "-fdiagnostics-show-option",
   "-fcolor-diagnostics",
   "-vectorize-slp",
   "-o", "test.o",
   "-x", "c++",
   "test.cc"]

/-- The flag set that ClientTest.ClangFlagSetTest expects back
(src/unnamed/part_002, lines 54-116). -/
def clangTestExpected : PFlags :=
  { compilerPath := "/home/test/.local/bin/clang"
    compilerVersion := ""
    input := "test.cc"
    output := "test.o"
    language := "c++"
    other := ["-cc1", "-triple", "x86_64-unknown-linux-gnu", "-emit-obj",
      "-mrelax-all", "-disable-free", "-mrelocation-model", "static",
      "-mdisable-fp-elim", "-fmath-errno", "-masm-verbose",
      "-mconstructor-aliases", "-munwind-tables", "-fuse-init-array",
      "-target-cpu", "x86-64", "-target-linker-version", "2.23.2",
      "-fdeprecated-macro", "-ferror-limit", "19", "-fmessage-length", "213",
      "-mstackrealign", "-fobjc-runtime=gcc", "-fcxx-exceptions",
      "-fexceptions", "-fdiagnostics-show-option", "-fcolor-diagnostics",
      "-vectorize-slp"]
    nonCached := ["-main-file-name", "test.cc",
      "-coverage-file", "/tmp/test.o",
      "-resource-dir", "/home/test/.local/lib/clang/3.4",
      "-internal-isystem", "/usr/include/c++/4.8.2",
      "-internal-isystem", "/usr/include/c++/4.8.2/x86_64-redhat-linux",
      "-internal-isystem", "/usr/include/c++/4.8.2/backward",
      "-internal-isystem", "/usr/include/x86_64-redhat-linux/c++/4.8.2",
      "-internal-isystem", "/usr/local/include",
      "-internal-isystem", "/home/test/.local/lib/clang/3.4/include",
      "-internal-externc-isystem", "/include",
      "-internal-externc-isystem", "/usr/include",
      "-fdebug-compilation-dir", "/tmp"] }

/-- C2 counterexample: on the well-formed command line of the in-repo test,
the flag `-x` is none of: the positional source, the `-o` argument, a
non-cached flag or value — yet it is absent from the `other` bucket (its
value lands in the `language` field instead), so not every remaining flag
goes to `other`. -/
theorem clangFlagSet_x_not_in_other :
    "-x" ∈ clangTestArgs ∧
      "-x" ∉ nonCachedNames ∧
      (ProcessFlags clangTestArgs).1.input ≠ "-x" ∧
      (ProcessFlags clangTestArgs).1.output ≠ "-x" ∧
      "-x" ∉ (ProcessFlags clangTestArgs).1.nonCached ∧
      "-x" ∉ (ProcessFlags clangTestArgs).1.other := by
  refine ⟨by decide, by decide, by decide, by decide, by decide, by decide⟩

/-- C2 (amended): on the normative command line of
ClientTest.ClangFlagSetTest, ProcessFlags routes the positional source to
input, the -o argument to output, the six non-cached flags with their value
arguments to non_cached in command-line order, the -x argument to the
language field, the leading binary path to the compiler identity, and every
remaining flag to other in command-line order, classifying the invocation
COMPILE. -/
theorem clangFlagSet_processFlags_repo_test :
    ProcessFlags clangTestArgs = (clangTestExpected, FlagAction.compile) := by
  decide

/-- Modelled from the spec: the fingerprint-assembly code is not among the
sources.  Per the spec the digest is "produced deterministically from: the
canonicalized input-source bytes after preprocessing, the lexically sorted
subset of compiler flags marked semantically cacheable, and a
compiler-identity tuple (path ..., advertised version)", and "the
fingerprint consumes only input + sorted `other` + compiler identity". -/
def sortStrings (l : List String) : List String := l.mergeSort (fun a b => a ≤ b)

/-- A cacheable flag serialized into the hashed byte stream (with a
separator byte). -/
def encodeFlag (s : String) : List Nat := strBytes s ++ [0]

/-- The fingerprint of a request: `base::MakeHash` over preprocessed source
bytes, lexically sorted `other` flags and the compiler identity. -/
def ComputeFingerprint (source : List Nat) (fl : PFlags) : List Nat :=
  MakeHash (source ++ (sortStrings fl.other).flatMap encodeFlag ++
    strBytes fl.compilerPath ++ [0] ++ strBytes fl.compilerVersion)

theorem sortStrings_perm_congr {l1 l2 : List String} (h : l1.Perm l2) :
    sortStrings l1 = sortStrings l2 := by
  haveI : IsAntisymm String (· ≤ ·) := ⟨fun _ _ hab hba => le_antisymm hab hba⟩
  exact List.eq_of_perm_of_sorted
    ((List.mergeSort_perm l1 _).trans (h.trans (List.mergeSort_perm l2 _).symm))
    (List.sorted_mergeSort' l1) (List.sorted_mergeSort' l2)

/-- C3: two requests whose preprocessed source, compiler identity and
cacheable (`other`) flags agree — the `other` flags possibly in a different
permutation, the `non_cached` values and the output path possibly different
— compute equal fingerprints. -/
theorem fingerprint_invariant (src1 src2 : List Nat) (f1 f2 : PFlags)
    (hsrc : src1 = src2)
    (hpath : f1.compilerPath = f2.compilerPath)
    (hver : f1.compilerVersion = f2.compilerVersion)
    (hother : f1.other.Perm f2.other) :
    ComputeFingerprint src1 f1 = ComputeFingerprint src2 f2 := by
  unfold ComputeFingerprint
  rw [hsrc, hpath, hver, sortStrings_perm_congr hother]

/-- First request of the C3 witness pair. -/
def fpReqA : PFlags :=
  { compilerPath := "/usr/bin/clang", compilerVersion := "3.4",
    output := "a.o", other := ["-cc1", "-emit-obj", "-O2"],
    nonCached := ["-main-file-name", "a.cc"] }

/-- Second request of the C3 witness pair: permuted `other`, different
`non_cached` values, different output path. -/
def fpReqB : PFlags :=
  { compilerPath := "/usr/bin/clang", compilerVersion := "3.4",
    output := "b.o", other := ["-O2", "-cc1", "-emit-obj"],
    nonCached := ["-main-file-name", "b.cc"] }

/-- Witness for C3: a concrete pair with permuted cacheable flags, differing
non-cached values and differing output paths hashes to the same fingerprint. -/
theorem fingerprint_invariant_witness :
    fpReqA.other ≠ fpReqB.other ∧
      fpReqA.nonCached ≠ fpReqB.nonCached ∧
      fpReqA.output ≠ fpReqB.output ∧
      ComputeFingerprint (strBytes "int main()") fpReqA =
        ComputeFingerprint (strBytes "int main()") fpReqB :=
  ⟨by decide, by decide, by decide,
    fingerprint_invariant _ _ _ _ rfl rfl rfl (by decide)⟩

/-- An Eviction Index record: fingerprint, entry size in bytes and
last-access timestamp. -/
structure IdxEntry where
  fp : Nat
  size : Nat
  last : Nat
deriving DecidableEq, Repr

/-- Modelled from the spec: the Artifact Store implementation is not among
the sources.  Per the spec the store is an on-disk content-addressed map
from fingerprint to artifact bytes with a bounded byte budget, shadowed by
an in-memory Eviction Index holding per-entry size and last-access
timestamp; `clock` supplies the monotonic timestamps. -/
structure Store where
  budget : Nat
  files : List (Nat × List Nat)
  index : List IdxEntry
  clock : Nat
deriving DecidableEq, Repr

/-- The store's occupancy: total byte size of the artifacts on disk. -/
def occupancy (st : Store) : Nat := (st.files.map (fun p => p.2.length)).sum

/-- Total of the `size` fields across Eviction Index entries. -/
def idxTotal (st : Store) : Nat := (st.index.map IdxEntry.size).sum

/-- The least-recently-used index record: minimal last-access value, ties
going to the earlier entry — the in-memory counterpart of
`GetLeastRecentPath` (base/file_utils.cc), which scans for the path with
the least modification time. -/
def leastRecent : List IdxEntry → Option IdxEntry
  | [] => none
  | e :: es =>
      match leastRecent es with
      | none => some e
      | some m => if e.last ≤ m.last then some e else some m

/-- Remove one fingerprint from the on-disk store and the Eviction Index. -/
def removeFp (st : Store) (f : Nat) : Store :=
  { st with files := st.files.filter (fun p => p.1 ≠ f),
            index := st.index.filter (fun e => e.fp ≠ f) }

/-- The spec's eviction policy: evict least-recent entries until the
reservation fits or the index is empty; `fuel` bounds the iteration. -/
def evictUntil : Nat → Store → Nat → Store
  | 0, st, _ => st
  | fuel + 1, st, need =>
      if occupancy st + need ≤ st.budget then st
      else
        match leastRecent st.index with
        | none => st
        | some m => evictUntil fuel (removeFp st m.fp) need

/-- Store error kinds: EBUDGET (size exceeds the budget outright) and EIO. -/
inductive StoreErr where
  | budgetExceeded
  | ioFailure
deriving DecidableEq, Repr

/-- The operation `reserve(F, size)`: may fail only if the requested size exceeds the
budget outright — then with EBUDGET, evicting nothing; otherwise evicts
least-recent entries until `current + size <= budget` and yields the
reservation token. -/
def reserve (st : Store) (f n : Nat) : Except StoreErr (Store × (Nat × Nat)) :=
  if st.budget < n then .error .budgetExceeded
  else .ok (evictUntil (st.index.length + 1) st n, (f, n))

/-- The operation `commit(token, payload)`: atomically materializes the artifact at its
content-addressed path, recording it in the Eviction Index with the current
timestamp.  The entry is published only when the payload size matches the
reservation, the artifact fits and the fingerprint is fresh; otherwise the
commit fails with EIO and publishes nothing. -/
def commit (st : Store) (tok : Nat × Nat) (payload : List Nat) :
    Except StoreErr Store :=
  if payload.length = tok.2 ∧ occupancy st + payload.length ≤ st.budget ∧
      st.files.all (fun p => p.1 ≠ tok.1) then
    .ok { st with files := st.files ++ [(tok.1, payload)],
                  index := st.index ++ [⟨tok.1, payload.length, st.clock⟩],
                  clock := st.clock + 1 }
  else .error .ioFailure

/-- Touch: update an entry's last-access timestamp to now. -/
def touch (st : Store) (f : Nat) : Store :=
  { st with
      index := st.index.map
        (fun e => if e.fp = f then { e with last := st.clock } else e),
      clock := st.clock + 1 }

/-- The operation `lookup(F)`: returns the payload if present and touches the eviction
record of a hit. -/
def lookup (st : Store) (f : Nat) : Option (List Nat) × Store :=
  match st.files.find? (fun p => p.1 = f) with
  | some p => (some p.2, touch st f)
  | none => (none, st)

/-- The store state after a lookup. -/
def applyLookup (st : Store) (f : Nat) : Store := (lookup st f).2

/-- The store state after a reserve call (unchanged when it fails). -/
def applyReserve (st : Store) (f n : Nat) : Store :=
  match reserve st f n with
  | .ok r => r.1
  | .error _ => st

/-- The store state after a commit (unchanged when it fails). -/
def applyCommit (st : Store) (tok : Nat × Nat) (payload : List Nat) : Store :=
  match commit st tok payload with
  | .ok st2 => st2
  | .error _ => st

/-- The operation `discard(token)`: release a reservation without publishing; neither the
store nor the index is mutated. -/
def applyDiscard (st : Store) (_tok : Nat × Nat) : Store := st

/-- The operation `delete(F)`: explicit removal of an entry from store and index. -/
def deleteEntry (st : Store) (f : Nat) : Store := removeFp st f

/-- Insert an artifact: reserve then commit (the success path of a build
write-back). -/
def insertArtifact (st : Store) (f : Nat) (payload : List Nat) : Store :=
  match reserve st f payload.length with
  | .error _ => st
  | .ok r => applyCommit r.1 r.2 payload

/-- The spec's LRU scenario: budget 3 bytes; insert F1, F2, F3 of 1 byte
each, touch F1, insert F4 of 1 byte. -/
def lruScenario : Store :=
  let st0 : Store := { budget := 3, files := [], index := [], clock := 0 }
  let st1 := insertArtifact st0 1 [65]
  let st2 := insertArtifact st1 2 [66]
  let st3 := insertArtifact st2 3 [67]
  let st4 := applyLookup st3 1
  insertArtifact st4 4 [68]

/-- Representation invariant: the in-memory index shadows the on-disk files
entry-for-entry (same fingerprints and sizes, in the same order), on-disk
fingerprints are distinct, and the occupancy is within budget. -/
def StoreInv (st : Store) : Prop :=
  st.index.map (fun e => (e.fp, e.size)) =
      st.files.map (fun p => (p.1, p.2.length)) ∧
    (st.files.map Prod.fst).Nodup ∧
    occupancy st ≤ st.budget

/-- The spec's joint invariant at stable points: occupancy within budget;
exactly one index entry with the correct size for every fingerprint present
in the store and none for an absent fingerprint; index size total equals
the occupancy. -/
def JointInv (st : Store) : Prop :=
  occupancy st ≤ st.budget ∧
    (∀ p ∈ st.files,
      (st.index.filter (fun e => e.fp = p.1)).map IdxEntry.size =
        [p.2.length]) ∧
    (∀ f : Nat, f ∉ st.files.map Prod.fst →
      st.index.filter (fun e => e.fp = f) = []) ∧
    idxTotal st = occupancy st

theorem sum_le_of_sublist {l1 l2 : List Nat} (h : l1.Sublist l2) :
    l1.sum ≤ l2.sum := by
  induction h with
  | slnil => simp
  | cons a _ ih => simp only [List.sum_cons]; omega
  | cons₂ a _ ih => simp only [List.sum_cons]; omega

theorem leastRecent_mem {l : List IdxEntry} {m : IdxEntry}
    (h : leastRecent l = some m) : m ∈ l := by
  induction l generalizing m with
  | nil => simp [leastRecent] at h
  | cons e es ih =>
      cases hm : leastRecent es with
      | none =>
          simp only [leastRecent, hm] at h
          simp only [Option.some.injEq] at h
          simp [← h]
      | some m2 =>
          simp only [leastRecent, hm] at h
          by_cases hle : e.last ≤ m2.last
          · rw [if_pos hle] at h
            simp only [Option.some.injEq] at h
            simp [← h]
          · rw [if_neg hle] at h
            simp only [Option.some.injEq] at h
            exact h ▸ List.mem_cons_of_mem _ (ih hm)

theorem leastRecent_eq_none {l : List IdxEntry} (h : leastRecent l = none) :
    l = [] := by
  cases l with
  | nil => rfl
  | cons e es =>
      exfalso
      simp only [leastRecent] at h
      cases h2 : leastRecent es with
      | none => simp only [h2] at h; simp at h
      | some m2 => simp only [h2] at h; split at h <;> simp at h

theorem leastRecent_min {l : List IdxEntry} {m : IdxEntry}
    (h : leastRecent l = some m) : ∀ x ∈ l, m.last ≤ x.last := by
  induction l generalizing m with
  | nil => simp [leastRecent] at h
  | cons e es ih =>
      intro x hx
      cases hm : leastRecent es with
      | none =>
          have hes := leastRecent_eq_none hm
          subst hes
          simp only [leastRecent, Option.some.injEq] at h
          subst h
          rcases List.mem_singleton.mp hx with rfl
          exact Nat.le_refl _
      | some m2 =>
          simp only [leastRecent, hm] at h
          by_cases hle : e.last ≤ m2.last
          · rw [if_pos hle] at h
            simp only [Option.some.injEq] at h
            subst h
            rcases List.mem_cons.mp hx with rfl | hxs
            · exact Nat.le_refl _
            · exact Nat.le_trans hle (ih hm x hxs)
          · rw [if_neg hle] at h
            simp only [Option.some.injEq] at h
            subst h
            rcases List.mem_cons.mp hx with rfl | hxs
            · omega
            · exact ih hm x hxs

theorem evictUntil_index_sublist (fuel need : Nat) (st : Store) :
    (evictUntil fuel st need).index.Sublist st.index := by
  induction fuel generalizing st with
  | zero => simp [evictUntil]
  | succ fuel ih =>
      simp only [evictUntil]
      by_cases hfit : occupancy st + need ≤ st.budget
      · simp [hfit]
      · rw [if_neg hfit]
        cases hm : leastRecent st.index with
        | none => exact List.Sublist.refl _
        | some m =>
            exact (ih (removeFp st m.fp)).trans (List.filter_sublist _)

theorem evict_older_aux (fuel need : Nat) (st : Store)
    (hnodup : (st.index.map IdxEntry.fp).Nodup)
    (hdist : st.index.Pairwise (fun a b => a.last ≠ b.last)) :
    ∀ e ∈ st.index, e ∉ (evictUntil fuel st need).index →
      ∀ r ∈ (evictUntil fuel st need).index, e.last < r.last := by
  induction fuel generalizing st with
  | zero =>
      intro e he hne r _
      rw [evictUntil] at hne
      exact absurd he hne
  | succ fuel ih =>
      intro e he hne r hr
      rw [evictUntil] at hne hr
      by_cases hfit : occupancy st + need ≤ st.budget
      · rw [if_pos hfit] at hne
        exact absurd he hne
      · rw [if_neg hfit] at hne hr
        cases hm : leastRecent st.index with
        | none =>
            rw [hm] at hne
            exact absurd he hne
        | some m =>
            rw [hm] at hne hr
            have hmmem := leastRecent_mem hm
            have hmin := leastRecent_min hm
            have hsub2 : (removeFp st m.fp).index.Sublist st.index :=
              List.filter_sublist _
            have hnodup2 : ((removeFp st m.fp).index.map IdxEntry.fp).Nodup :=
              List.Nodup.sublist (List.Sublist.map IdxEntry.fp hsub2) hnodup
            have hdist2 := List.Pairwise.sublist hsub2 hdist
            by_cases hefp : e.fp = m.fp
            · have hem : e = m :=
                List.inj_on_of_nodup_map hnodup he hmmem hefp
              have hrmem2 : r ∈ (removeFp st m.fp).index :=
                (evictUntil_index_sublist fuel need _).subset hr
              have hrmem : r ∈ st.index := hsub2.subset hrmem2
              have hrfp : r.fp ≠ m.fp := by
                have := (List.mem_filter.mp hrmem2).2
                simpa using this
              have hrne : e ≠ r := by
                intro hcontra
                exact hrfp (hcontra ▸ hefp)
              have hlastne : e.last ≠ r.last :=
                List.Pairwise.forall (fun _ _ hab => hab.symm) hdist he hrmem hrne
              exact Nat.lt_of_le_of_ne (hem ▸ hmin r hrmem) hlastne
            · have he2 : e ∈ (removeFp st m.fp).index := by
                simp [removeFp, List.mem_filter, he, hefp]
              exact ih _ hnodup2 hdist2 e he2 hne r hr

/-- C5: eviction always removes least-recently-used entries — every evicted
index entry has a last-access timestamp strictly smaller than every
retained entry (eviction extracts the minimum, as GetLeastRecentPath
computes by modification time) — and in the concrete scenario with budget 3
bytes, after inserting F1, F2, F3 of 1 byte each, touching F1 and inserting
F4 of 1 byte, exactly F2 is evicted and F1, F3, F4 remain. -/
theorem eviction_removes_strictly_older (fuel need : Nat) (st : Store)
    (hnodup : (st.index.map IdxEntry.fp).Nodup)
    (hdist : st.index.Pairwise (fun a b => a.last ≠ b.last)) :
    (∀ e ∈ st.index, e ∉ (evictUntil fuel st need).index →
      ∀ r ∈ (evictUntil fuel st need).index, e.last < r.last) ∧
      lruScenario.files.map Prod.fst = [1, 3, 4] :=
  ⟨evict_older_aux fuel need st hnodup hdist, by decide⟩

/-- A concrete two-entry store for the C5 witness. -/
def c5Store : Store :=
  { budget := 2, files := [(1, [65]), (2, [66])],
    index := [⟨1, 1, 5⟩, ⟨2, 1, 3⟩], clock := 6 }

/-- Witness for C5 at a concrete store. -/
theorem eviction_removes_strictly_older_witness :
    (∀ e ∈ c5Store.index, e ∉ (evictUntil 3 c5Store 1).index →
      ∀ r ∈ (evictUntil 3 c5Store 1).index, e.last < r.last) ∧
      lruScenario.files.map Prod.fst = [1, 3, 4] :=
  eviction_removes_strictly_older 3 1 c5Store (by decide) (by decide)

/-- C7: reserving a size strictly greater than the configured budget fails
with EBUDGET and evicts nothing — the store contents and the eviction index
are unchanged by the failed call. -/
theorem reserve_over_budget_no_evict (st : Store) (f n : Nat)
    (h : st.budget < n) :
    reserve st f n = .error .budgetExceeded ∧ applyReserve st f n = st := by
  constructor
  · simp [reserve, h]
  · simp [applyReserve, reserve, h]

/-- A concrete non-empty store for the C7 witness. -/
def c7Store : Store :=
  { budget := 3, files := [(1, [65]), (2, [66])],
    index := [⟨1, 1, 0⟩, ⟨2, 1, 1⟩], clock := 2 }

/-- Witness for C7: reserving 4 bytes against a budget of 3 fails and
leaves the two stored entries in place. -/
theorem reserve_over_budget_no_evict_witness :
    reserve c7Store 9 4 = .error .budgetExceeded ∧
      applyReserve c7Store 9 4 = c7Store :=
  reserve_over_budget_no_evict c7Store 9 4 (by decide)

theorem map_filter_parallel (q : Nat → Bool) :
    ∀ (l1 : List IdxEntry) (l2 : List (Nat × List Nat)),
      l1.map (fun e => (e.fp, e.size)) = l2.map (fun p => (p.1, p.2.length)) →
      (l1.filter (fun e => q e.fp)).map (fun e => (e.fp, e.size)) =
        (l2.filter (fun p => q p.1)).map (fun p => (p.1, p.2.length)) := by
  intro l1
  induction l1 with
  | nil =>
      intro l2 h
      cases l2 with
      | nil => rfl
      | cons p ps => simp at h
  | cons e es ih =>
      intro l2 h
      cases l2 with
      | nil => simp at h
      | cons p ps =>
          simp only [List.map_cons, List.cons.injEq] at h
          obtain ⟨h1, h2⟩ := h
          have hfp : e.fp = p.1 := congrArg Prod.fst h1
          have hrec := ih ps h2
          simp only [List.filter_cons]
          by_cases hq : q e.fp = true
          · rw [if_pos hq, if_pos (hfp ▸ hq)]
            simp only [List.map_cons, hrec, h1]
          · rw [if_neg hq, if_neg (hfp ▸ hq)]
            exact hrec

theorem files_filter_self {l2 : List (Nat × List Nat)}
    (hnodup : (l2.map Prod.fst).Nodup) :
    ∀ p ∈ l2, l2.filter (fun x => x.1 = p.1) = [p] := by
  induction l2 with
  | nil => intro p hp; simp at hp
  | cons a as ih =>
      intro p hp
      simp only [List.map_cons, List.nodup_cons] at hnodup
      obtain ⟨hna, hnas⟩ := hnodup
      rcases List.mem_cons.mp hp with rfl | hpas
      · rw [List.filter_cons_of_pos (by simp)]
        have : as.filter (fun x => x.1 = p.1) = [] := by
          rw [List.filter_eq_nil_iff]
          intro x hx hx1
          simp only [decide_eq_true_eq] at hx1
          exact hna (hx1 ▸ List.mem_map_of_mem Prod.fst hx)
        rw [this]
      · have hne : ¬(a.1 = p.1) := by
          intro heq
          exact hna (heq ▸ List.mem_map_of_mem Prod.fst hpas)
        rw [List.filter_cons_of_neg (by simpa using hne)]
        exact ih hnas p hpas

theorem map_pair_singleton {lst : List IdxEntry} {a b : Nat}
    (h : lst.map (fun e => (e.fp, e.size)) = [(a, b)]) :
    lst.map IdxEntry.size = [b] := by
  cases lst with
  | nil => simp at h
  | cons e es =>
      cases es with
      | nil =>
          simp only [List.map_cons, List.map_nil, List.cons.injEq,
            and_true] at h
          have : e.size = b := congrArg Prod.snd h
          simp [this]
      | cons e2 es2 => simp at h

theorem idxTotal_eq_of_parallel {st : Store}
    (h : st.index.map (fun e => (e.fp, e.size)) =
      st.files.map (fun p => (p.1, p.2.length))) :
    idxTotal st = occupancy st := by
  have h2 := congrArg (fun l : List (Nat × Nat) => (l.map Prod.snd).sum) h
  simp only [List.map_map] at h2
  have e1 : st.index.map (Prod.snd ∘ fun e => (e.fp, e.size)) =
      st.index.map IdxEntry.size :=
    List.map_congr_left (fun e _ => rfl)
  have e2 : st.files.map (Prod.snd ∘ fun p => (p.1, p.2.length)) =
      st.files.map (fun p => p.2.length) :=
    List.map_congr_left (fun p _ => rfl)
  rw [e1, e2] at h2
  exact h2

theorem jointInv_of_storeInv {st : Store} (h : StoreInv st) : JointInv st := by
  obtain ⟨hpar, hnodup, hbud⟩ := h
  refine ⟨hbud, ?_, ?_, idxTotal_eq_of_parallel hpar⟩
  · intro p hp
    have hfilter :
        (st.index.filter (fun e => e.fp = p.1)).map (fun e => (e.fp, e.size)) =
          (st.files.filter (fun x => x.1 = p.1)).map
            (fun x => (x.1, x.2.length)) :=
      map_filter_parallel (fun v => decide (v = p.1)) st.index st.files hpar
    rw [files_filter_self hnodup p hp] at hfilter
    exact map_pair_singleton hfilter
  · intro f hf
    have hfilter :
        (st.index.filter (fun e => e.fp = f)).map (fun e => (e.fp, e.size)) =
          (st.files.filter (fun x => x.1 = f)).map
            (fun x => (x.1, x.2.length)) :=
      map_filter_parallel (fun v => decide (v = f)) st.index st.files hpar
    have hnilf : st.files.filter (fun x => x.1 = f) = [] := by
      rw [List.filter_eq_nil_iff]
      intro x hx hx1
      simp only [decide_eq_true_eq] at hx1
      exact hf (hx1 ▸ List.mem_map_of_mem Prod.fst hx)
    rw [hnilf] at hfilter
    simpa [List.map_eq_nil_iff] using hfilter

theorem storeInv_removeFp {st : Store} (h : StoreInv st) (f : Nat) :
    StoreInv (removeFp st f) := by
  obtain ⟨hpar, hnodup, hbud⟩ := h
  refine ⟨?_, ?_, ?_⟩
  · exact map_filter_parallel (fun v => decide (¬v = f)) st.index st.files hpar
  · exact List.Nodup.sublist
      (List.Sublist.map Prod.fst (List.filter_sublist _)) hnodup
  · exact Nat.le_trans
      (sum_le_of_sublist (List.Sublist.map _ (List.filter_sublist _))) hbud

theorem storeInv_evictUntil (fuel need : Nat) (st : Store) (h : StoreInv st) :
    StoreInv (evictUntil fuel st need) := by
  induction fuel generalizing st with
  | zero => simpa [evictUntil] using h
  | succ fuel ih =>
      rw [evictUntil]
      by_cases hfit : occupancy st + need ≤ st.budget
      · simpa [hfit] using h
      · rw [if_neg hfit]
        cases hm : leastRecent st.index with
        | none => exact h
        | some m => exact ih _ (storeInv_removeFp h m.fp)

theorem storeInv_touch {st : Store} (h : StoreInv st) (f : Nat) :
    StoreInv (touch st f) := by
  obtain ⟨hpar, hnodup, hbud⟩ := h
  refine ⟨?_, hnodup, hbud⟩
  have e1 : (touch st f).index.map (fun e => (e.fp, e.size)) =
      st.index.map (fun e => (e.fp, e.size)) := by
    simp only [touch, List.map_map]
    exact List.map_congr_left (fun e _ => by
      simp only [Function.comp_apply]
      by_cases hef : e.fp = f <;> simp [hef])
  rw [e1, hpar]
  rfl

theorem storeInv_applyLookup {st : Store} (h : StoreInv st) (f : Nat) :
    StoreInv (applyLookup st f) := by
  unfold applyLookup lookup
  cases hfind : st.files.find? (fun p => p.1 = f) with
  | none => exact h
  | some p => exact storeInv_touch h f

theorem storeInv_applyReserve {st : Store} (h : StoreInv st) (f n : Nat) :
    StoreInv (applyReserve st f n) := by
  unfold applyReserve reserve
  by_cases hb : st.budget < n
  · simpa [hb] using h
  · simpa [hb] using storeInv_evictUntil (st.index.length + 1) n st h

theorem storeInv_applyCommit {st : Store} (h : StoreInv st) (tok : Nat × Nat)
    (payload : List Nat) : StoreInv (applyCommit st tok payload) := by
  unfold applyCommit commit
  by_cases hc : payload.length = tok.2 ∧
      occupancy st + payload.length ≤ st.budget ∧
      st.files.all (fun p => p.1 ≠ tok.1)
  · rw [if_pos hc]
    obtain ⟨hpar, hnodup, hbud⟩ := h
    obtain ⟨hlen, hfit, hfresh⟩ := hc
    refine ⟨?_, ?_, ?_⟩
    · show (st.index ++ _).map _ = (st.files ++ _).map _
      simp [List.map_append, hpar]
    · show ((st.files ++ [(tok.1, payload)]).map Prod.fst).Nodup
      rw [List.map_append, List.nodup_append]
      refine ⟨hnodup, by simp, ?_⟩
      intro a ha hb
      simp only [List.map_cons, List.map_nil, List.mem_singleton] at hb
      subst hb
      obtain ⟨p, hp, hpa⟩ := List.mem_map.mp ha
      have hall := (List.all_eq_true.mp hfresh) p hp
      simp only [decide_eq_true_eq] at hall
      exact hall hpa
    · show occupancy _ ≤ _
      simp only [occupancy] at hfit
      simp only [occupancy, List.map_append, List.sum_append, List.map_cons,
        List.map_nil, List.sum_cons, List.sum_nil]
      omega
  · rw [if_neg hc]
    exact h

/-- C8: every Store operation — lookup, reserve, commit, discard, delete —
preserves the joint invariant at stable points: the occupancy stays within
the configured budget, the Eviction Index carries exactly one entry with
the correct size for every fingerprint present in the Store and none for an
absent fingerprint, and the total of the index size fields equals the
store's occupancy. -/
theorem store_ops_preserve_invariants (st : Store) (f n : Nat)
    (tok : Nat × Nat) (payload : List Nat) (h : StoreInv st) :
    (StoreInv (applyLookup st f) ∧ JointInv (applyLookup st f)) ∧
      (StoreInv (applyReserve st f n) ∧ JointInv (applyReserve st f n)) ∧
      (StoreInv (applyCommit st tok payload) ∧
        JointInv (applyCommit st tok payload)) ∧
      (StoreInv (applyDiscard st tok) ∧ JointInv (applyDiscard st tok)) ∧
      (StoreInv (deleteEntry st f) ∧ JointInv (deleteEntry st f)) := by
  have h1 := storeInv_applyLookup h f
  have h2 := storeInv_applyReserve h f n
  have h3 := storeInv_applyCommit h tok payload
  have h5 := storeInv_removeFp h f
  exact ⟨⟨h1, jointInv_of_storeInv h1⟩, ⟨h2, jointInv_of_storeInv h2⟩,
    ⟨h3, jointInv_of_storeInv h3⟩, ⟨h, jointInv_of_storeInv h⟩,
    ⟨h5, jointInv_of_storeInv h5⟩⟩

/-- A concrete two-entry store for the C8 witness. -/
def c8Store : Store :=
  { budget := 4, files := [(1, [65]), (2, [66, 67])],
    index := [⟨1, 1, 0⟩, ⟨2, 2, 1⟩], clock := 2 }

/-- Witness for C8 at a concrete store and one concrete instance of each
operation. -/
theorem store_ops_preserve_invariants_witness :
    (StoreInv (applyLookup c8Store 1) ∧ JointInv (applyLookup c8Store 1)) ∧
      (StoreInv (applyReserve c8Store 3 2) ∧
        JointInv (applyReserve c8Store 3 2)) ∧
      (StoreInv (applyCommit c8Store (3, 1) [68]) ∧
        JointInv (applyCommit c8Store (3, 1) [68])) ∧
      (StoreInv (applyDiscard c8Store (3, 1)) ∧
        JointInv (applyDiscard c8Store (3, 1))) ∧
      (StoreInv (deleteEntry c8Store 1) ∧ JointInv (deleteEntry c8Store 1)) :=
  store_ops_preserve_invariants c8Store 1 2 (3, 1) [68] (by
    refine ⟨by decide, by decide, by decide⟩)

/-- The role a claimer of a fingerprint obtains from the Inflight Table. -/
inductive Role where
  | leader
  | follower
deriving DecidableEq, Repr

/-- Modelled from the spec: the Inflight Table implementation is not among
the sources.  Per the spec an Inflight Record is a "per-fingerprint
structure with a one-shot completion slot ... and a set of waiters",
created on first miss. -/
structure InflightRecord where
  leader : Nat
  followers : List Nat
deriving DecidableEq, Repr

/-- The operation `claim(F)`: the first claimer of a fingerprint creates the record and
becomes Leader; later claimers are appended as Followers in arrival order.
Per the spec all claims are serialized per-fingerprint, so the concurrent
claims are modelled as a sequence of state transitions. -/
def claim : Option InflightRecord → Nat → Option InflightRecord × Role
  | none, r => (some ⟨r, []⟩, .leader)
  | some ir, r => (some { ir with followers := ir.followers ++ [r] }, .follower)

/-- Run a serialized batch of claims against one fingerprint's slot. -/
def runClaims : Option InflightRecord → List Nat → Option InflightRecord × List Role
  | s, [] => (s, [])
  | s, r :: rs =>
      let step := claim s r
      let next := runClaims step.1 rs
      (next.1, step.2 :: next.2)

/-- The operation `complete(F, result)`: the Leader publishes its result; every Follower
is signalled with exactly that result. -/
def complete (ir : InflightRecord) (result : Nat) : List (Nat × Nat) :=
  ir.followers.map (fun w => (w, result))

theorem runClaims_some (ir : InflightRecord) (rs : List Nat) :
    runClaims (some ir) rs =
      (some ⟨ir.leader, ir.followers ++ rs⟩, rs.map fun _ => Role.follower) := by
  induction rs generalizing ir with
  | nil => simp [runClaims]
  | cons r rs ih => simp [runClaims, claim, ih]

/-- C4: for a batch of concurrent requests claiming the same fingerprint on
a cold cache, exactly one claim (the first) obtains the Leader role — so
exactly one build is executed — every other request becomes a Follower of
the record, and completing the record hands every Follower exactly the
Leader's result. -/
theorem inflight_one_leader_followers_get_result (r : Nat) (rs : List Nat)
    (res : Nat) :
    (runClaims none (r :: rs)).2.count Role.leader = 1 ∧
      (runClaims none (r :: rs)).1 = some ⟨r, rs⟩ ∧
      complete ⟨r, rs⟩ res = rs.map (fun w => (w, res)) ∧
      ∀ p ∈ complete ⟨r, rs⟩ res, p.2 = res := by
  refine ⟨?_, ?_, rfl, ?_⟩
  · simp [runClaims, claim, runClaims_some, List.count_cons,
      List.count_replicate]
  · simp [runClaims, claim, runClaims_some]
  · intro p hp
    obtain ⟨w, _, hw⟩ := List.mem_map.mp hp
    simpa using congrArg Prod.snd hw.symm

mutual
/-- A model file tree: a regular file with a byte size, or a directory with
a list of children. -/
inductive FSNode where
  | file (size : Nat)
  | dir (entries : FSList)
inductive FSList where
  | nil
  | cons (head : FSNode) (tail : FSList)
end

mutual
/-- Modelled from the spec: the body of `CalculateDirectorySize`
(base/file_utils.cc) is not among the sources, only its unit test is
(FileUtilsTest.CalculateDirectorySize, src/unnamed/part_000 lines 16-47).
The walk adds the size of every regular file and recurses into
subdirectories, as the test — which spreads files over nested
subdirectories and expects the total — requires. -/
def CalculateDirectorySize : FSNode → Nat
  | .file n => n
  | .dir es => dirListSize es
def dirListSize : FSList → Nat
  | .nil => 0
  | .cons e es => CalculateDirectorySize e + dirListSize es
end

mutual
/-- All regular-file sizes in a tree, at any depth, in traversal order. -/
def fileSizes : FSNode → List Nat
  | .file n => [n]
  | .dir es => fileSizesList es
def fileSizesList : FSList → List Nat
  | .nil => []
  | .cons e es => fileSizes e ++ fileSizesList es
end

mutual
theorem calcSizeAux : ∀ t : FSNode, CalculateDirectorySize t = (fileSizes t).sum
  | .file n => by simp [CalculateDirectorySize, fileSizes]
  | .dir es => by
      rw [CalculateDirectorySize, fileSizes]
      exact calcListSizeAux es
theorem calcListSizeAux : ∀ es : FSList, dirListSize es = (fileSizesList es).sum
  | .nil => by simp [dirListSize, fileSizesList]
  | .cons e es => by
      rw [dirListSize, fileSizesList, List.sum_append, calcSizeAux e,
        calcListSizeAux es]
end

/-- C9: for every directory, CalculateDirectorySize returns the sum of the
sizes of all regular files contained in it, including files inside nested
subdirectories at any depth. -/
theorem calculateDirectorySize_sums_all_depths (es : FSList) :
    CalculateDirectorySize (.dir es) = (fileSizes (.dir es)).sum :=
  calcSizeAux (.dir es)

/-- Validation against the in-repo test FileUtilsTest.CalculateDirectorySize:
a root with file1 of 1 byte plus subdirectories holding file2 of 2 bytes and
file3 of 3 bytes totals 6 bytes. -/
theorem calculateDirectorySize_repo_test :
    CalculateDirectorySize
        (.dir (.cons (.dir (.cons (.file 2) .nil))
          (.cons (.dir (.cons (.file 3) .nil))
            (.cons (.file 1) .nil)))) = 1 + 2 + 3 := by
  rfl

/-- The specialization `std::hash<base::optional<T>>` (base/optional.h, embedded at
src/src/base/hash.cc lines 546-555):
`return static_cast<bool>(optional) ? hash<T>()(*optional) : 0;`. -/
def optionalHash {α : Type} (hashT : α → Nat) : Option α → Nat
  | none => 0
  | some v => hashT v

/-- C10: the hash of an unset optional is 0, the hash of a set optional is
the element hash of the contained value, and consequently an unset optional
collides with every value whose element hash is 0. -/
theorem optionalHash_unset_zero_set_hashT {α : Type} (hashT : α → Nat) :
    optionalHash hashT none = 0 ∧
      (∀ v : α, optionalHash hashT (some v) = hashT v) ∧
      (∀ v : α, hashT v = 0 →
        optionalHash hashT (some v) = optionalHash hashT none) := by
  refine ⟨rfl, fun v => rfl, fun v hv => ?_⟩
  simp [optionalHash, hv]

/-- Witness for C10 at a concrete element hash. -/
theorem optionalHash_unset_zero_set_hashT_witness :
    optionalHash (fun n : Nat => n % 3) none = 0 ∧
      optionalHash (fun n : Nat => n % 3) (some 5) = 5 % 3 ∧
      optionalHash (fun n : Nat => n % 3) (some 6) =
        optionalHash (fun n : Nat => n % 3) none := by
  have h := optionalHash_unset_zero_set_hashT (fun n : Nat => n % 3)
  exact ⟨h.1, h.2.1 5, h.2.2 6 (by decide)⟩

end DistClang
